import Mathlib

/-!
Shallow embedding of `pig.go` (package main): a simulator comparing
strategies for the dice game Pig.

Modelling conventions:
* Go `int` is modelled as `Int` (the program only ever adds small
  non-negative quantities bounded by ~106, so fixed-width overflow can
  never occur on reachable values).
* The global `math/rand` source is modelled as a stream `g : Nat → Nat`
  together with a cursor that advances by one at every draw.
  `rand.Intn n` at cursor `i` is modelled as `g i % n`;
  `rand.Float64() > 0.5` (a fair coin) is modelled as `g i % 2 = 1`.
* The unbounded `for` loop of `play` is modelled with explicit fuel,
  returning `none` when the fuel is exhausted before the loop exits.
* In `roundRobin` the goroutine workers all call `play` on the shared
  RNG with nondeterministic interleaving, so the winner of the k-th game
  between strategies `i` and `j` is modelled by an oracle
  `res : Nat → Nat → Nat → Nat` standing for the value returned by
  `play(strategies[i], strategies[j])`; the tallying and aggregation
  code is embedded exactly.  The nondeterministic arrival order of the
  worker result vectors on the channel is an explicit `order` parameter
  (a permutation of `0, …, n-1`).
* `float64` percentages exist only inside `ratioString`; they are
  modelled exactly on the inputs the program can produce: for a positive
  total the value `100*val/total` printed with `%0.1f` is the exact
  rational rounded to the nearest tenth, and for a zero total IEEE-754
  division yields `NaN` (`0/0`) or `±Inf` (`val/0`, `val ≠ 0`), which
  `fmt` prints as `NaN`, `+Inf`, `-Inf`.
-/

/-- The RNG stream: an infinite sequence of natural draws. -/
def RNG : Type := Nat → Nat

/-- Go: `win = 100`, the winning score in a game of Pig. -/
def win : Int := 100

/-- Go: `gamesPerSeries = 10`, the number of games per series. -/
def gamesPerSeries : Nat := 10

/-- Go: `type score struct { player, opponent, thisTurn int }`. -/
structure score where
  player : Int
  opponent : Int
  thisTurn : Int
deriving DecidableEq, Repr

/-- The two action primitives the strategies can choose between
(the Go `action` function values `roll` and `stay`). -/
inductive Act where
  | roll
  | stay
deriving DecidableEq, Repr

/-- Body of Go `roll` after the die outcome has been drawn:
if the outcome is 1 the turn ends, roles swap and `thisTurn` is
abandoned; otherwise the outcome is added to `thisTurn`. -/
def rollWith (outcome : Int) (s : score) : score × Bool :=
  if outcome = 1 then
    ({ player := s.opponent, opponent := s.player, thisTurn := 0 }, true)
  else
    ({ player := s.player, opponent := s.opponent, thisTurn := outcome + s.thisTurn }, false)

/-- The die outcome drawn at cursor `i`: Go `rand.Intn(6) + 1`. -/
def dieOutcome (g : RNG) (i : Nat) : Int :=
  ((g i % 6 : Nat) : Int) + 1

/-- Go `roll`: draws one die outcome from the RNG (advancing the cursor)
and applies `rollWith`. -/
def roll (g : RNG) (i : Nat) (s : score) : score × Bool × Nat :=
  ((rollWith (dieOutcome g i) s).1, (rollWith (dieOutcome g i) s).2, i + 1)

/-- Go `stay`: banks `thisTurn` into the player's score and swaps roles;
the turn always ends.  No RNG draw. -/
def stay (s : score) : score × Bool :=
  ({ player := s.opponent, opponent := s.player + s.thisTurn, thisTurn := 0 }, true)

/-- The concrete strategies of the program: `StayAtK{k}` and `Random{}`. -/
inductive Strategy where
  | StayAtK (k : Int)
  | Random
deriving DecidableEq, Repr

/-- Go `nextAction` of both strategy types.  `StayAtK` stays exactly when
`thisTurn >= k` and draws nothing; `Random` flips a fair coin
(`rand.Float64() > 0.5`), advancing the RNG cursor. -/
def nextAction : Strategy → RNG → Nat → score → Act × Nat
  | .StayAtK k, _, i, s => (if s.thisTurn ≥ k then Act.stay else Act.roll, i)
  | .Random, g, i, _ => (if g i % 2 = 1 then Act.stay else Act.roll, i + 1)

/-- Applying a chosen action primitive to a score
(the call `action(s)` in the body of `play`). -/
def applyAct : Act → RNG → Nat → score → score × Bool × Nat
  | .roll, g, i, s => roll g i s
  | .stay, _, i, s => ((stay s).1, (stay s).2, i)

/-- State of the `play` loop: current score, the acting role index
(`currentPlayer`), and the RNG cursor. -/
structure GState where
  s : score
  cur : Nat
  idx : Nat
deriving DecidableEq, Repr

/-- Go `strategies[currentPlayer]` for `strategies = [strategy0, strategy1]`
(`cur` is always 0 or 1). -/
def activeStrategy (s0 s1 : Strategy) (cur : Nat) : Strategy :=
  if cur = 0 then s0 else s1

/-- The action chosen in one iteration of the `play` loop, with the RNG
cursor after the choice. -/
def chosenAct (s0 s1 : Strategy) (g : RNG) (st : GState) : Act × Nat :=
  nextAction (activeStrategy s0 s1 st.cur) g st.idx st.s

/-- The result of applying the chosen action in one iteration of the
`play` loop: new score, `turnIsOver` flag, new RNG cursor. -/
def appliedStep (s0 s1 : Strategy) (g : RNG) (st : GState) : score × Bool × Nat :=
  applyAct (chosenAct s0 s1 g st).1 g (chosenAct s0 s1 g st).2 st.s

/-- One iteration of the body of the `play` loop: apply the chosen action
and flip `currentPlayer` exactly when the turn is over. -/
def stepG (s0 s1 : Strategy) (g : RNG) (st : GState) : GState :=
  { s := (appliedStep s0 s1 g st).1
    cur := if (appliedStep s0 s1 g st).2.1 then (st.cur + 1) % 2 else st.cur
    idx := (appliedStep s0 s1 g st).2.2 }

/-- The loop guard of `play`: `s.player + s.thisTurn < win`. -/
def condG (st : GState) : Prop :=
  st.s.player + st.s.thisTurn < win

instance (st : GState) : Decidable (condG st) := by
  unfold condG; infer_instance

/-- The `play` loop with fuel: returns `some currentPlayer` at the first
state where the guard fails, `none` if the fuel runs out first. -/
def playLoop (s0 s1 : Strategy) (g : RNG) : Nat → GState → Option Nat
  | 0, st => if condG st then none else some st.cur
  | fuel + 1, st => if condG st then playLoop s0 s1 g fuel (stepG s0 s1 g st) else some st.cur

/-- Initial state of `play`: fresh score `(0,0,0)`, starting player drawn
by `rand.Intn(2)` (consuming cursor 0). -/
def initG (g : RNG) : GState :=
  { s := { player := 0, opponent := 0, thisTurn := 0 }, cur := g 0 % 2, idx := 1 }

/-- Go `play`: simulates one game of Pig and returns the winner (0 or 1),
`none` if the given fuel does not reach the loop exit. -/
def play (s0 s1 : Strategy) (g : RNG) (fuel : Nat) : Option Nat :=
  playLoop s0 s1 g fuel (initG g)

/-- The state after `t` iterations of the `play` loop body. -/
def iterG (s0 s1 : Strategy) (g : RNG) (t : Nat) : GState :=
  (stepG s0 s1 g)^[t] (initG g)

/-- The Go `play` loop has no fuel; it terminates exactly when some fuel
suffices in the model. -/
def PlayTerminates (s0 s1 : Strategy) (g : RNG) : Prop :=
  ∃ fuel w, play s0 s1 g fuel = some w

/-- The all-zeros RNG stream. -/
def gZero : RNG := fun _ => 0

/-- A stream on which every die roll comes up 6 (`5 % 6 + 1`) and the
starting player is 1 (`5 % 2`). -/
def gSix : RNG := fun _ => 5

/-- Increment the entry at position `i` of a win-count vector
(Go `winCount[i]++`; out-of-range indices never occur in the program). -/
def incAt : List Nat → Nat → List Nat
  | [], _ => []
  | x :: xs, 0 => (x + 1) :: xs
  | x :: xs, m + 1 => x :: incAt xs m

/-- One game of the inner `for k` loop of a worker: the oracle value
`res i j k` is the winner returned by `play(strategies[i], strategies[j])`;
`winCount[i]` is incremented on 0, otherwise `winCount[j]`. -/
def gameStep (res : Nat → Nat → Nat → Nat) (i j : Nat) (v : List Nat) (k : Nat) : List Nat :=
  if res i j k = 0 then incAt v i else incAt v j

/-- Go inner loop `for k := 0; k < gamesPerSeries; k++` of worker `i`
against opponent `j`, tallying into the private vector `v`. -/
def runSeries (res : Nat → Nat → Nat → Nat) (i j : Nat) (v : List Nat) : List Nat :=
  (List.range gamesPerSeries).foldl (gameStep res i j) v

/-- The private win-count vector computed by goroutine `i`: a fresh
vector of `n` zeros, one series against every `j > i`. -/
def workerCount (res : Nat → Nat → Nat → Nat) (n i : Nat) : List Nat :=
  ((List.range n).drop (i + 1)).foldl (fun v j => runSeries res i j v) (List.replicate n 0)

/-- Element-wise addition of a received result vector into `wins`
(Go `for j := range r { wins[j] += r[j] }`; all vectors have length `n`). -/
def vadd (wins r : List Nat) : List Nat :=
  List.zipWith (· + ·) wins r

/-- Go `roundRobin`: every worker's private vector is summed into `wins`
in channel-arrival order `order` (a permutation of `0, …, n-1`), and
`gamesPerStrategy = gamesPerSeries * (n - 1)`. -/
def roundRobin (n : Nat) (res : Nat → Nat → Nat → Nat) (order : List Nat) : List Nat × Nat :=
  ((order.map (workerCount res n)).foldl vadd (List.replicate n 0),
    gamesPerSeries * (n - 1))

/-- Decimal rendering of a number of tenths: `fmtTenths 167 = "16.7"`
(the digits `%0.1f` prints for the value `16.7`). -/
def fmtTenths (t : Int) : String :=
  (if t < 0 then "-" else "") ++ toString (t.natAbs / 10) ++ "." ++ toString (t.natAbs % 10)

/-- The number of tenths `%0.1f` rounds `100*val/total` to, for a
positive `total`: the nearest integer to the rational `1000*val/total`. -/
def roundTenths (val total : Int) : Int :=
  Int.fdiv (2000 * val + total) (2 * total)

/-- The string `%0.1f` produces for the Go value `100*float64(val)/float64(total)`:
for `total = 0`, IEEE-754 division gives `NaN` or `±Inf`, printed by `fmt`
as `"NaN"`, `"+Inf"`, `"-Inf"`; otherwise the value rounded to tenths. -/
def pctString (val total : Int) : String :=
  if total = 0 then
    if val = 0 then "NaN" else if 0 < val then "+Inf" else "-Inf"
  else
    fmtTenths (roundTenths val total)

/-- One `"<val>/<total> (<pct>%)"` item of `ratioString`
(Go `fmt.Sprintf("%d/%d (%0.1f%%)", val, total, pct)`). -/
def ratioEntry (total val : Int) : String :=
  toString val ++ "/" ++ toString total ++ " (" ++ pctString val total ++ "%)"

/-- Go `ratioString`: sums the values into `total`, then renders each
value, separating consecutive items with `", "`. -/
def ratioString (vals : List Int) : String :=
  vals.foldl
    (fun s val => (if s ≠ "" then s ++ ", " else s) ++ ratioEntry (vals.foldl (· + ·) 0) val)
    ""

/-- The join of a list of items with separator `", "`, as the spec words
it ("renderings joined by a comma and space"). -/
def sepJoin : List String → String
  | [] => ""
  | [e] => e
  | e :: es => e ++ ", " ++ sepJoin es

/-- The tail of a comma-separated join: every item prefixed by `", "`. -/
def commaTail : List String → String
  | [] => ""
  | e :: es => ", " ++ e ++ commaTail es

/-- The outcome oracle used in concrete witnesses: strategy `i` (the
lower index) wins every game. -/
def resZero : Nat → Nat → Nat → Nat := fun _ _ _ => 0

/-- C4: for every `Score` and every die outcome in `{1,…,6}`, `roll` with
outcome 1 swaps `player` and `opponent`, resets `thisTurn` to 0 and ends
the turn; with an outcome in `{2,…,6}` it strictly increases `thisTurn`
by that outcome, leaves `player` and `opponent` unchanged and does not
end the turn; the drawn outcome always lies in `{1,…,6}`. -/
theorem c4_roll_outcomes (s : score) (o : Int) :
    (o = 1 → rollWith o s = ({ player := s.opponent, opponent := s.player, thisTurn := 0 }, true))
    ∧ (2 ≤ o → o ≤ 6 →
        rollWith o s =
          ({ player := s.player, opponent := s.opponent, thisTurn := o + s.thisTurn }, false)
        ∧ s.thisTurn < o + s.thisTurn)
    ∧ (∀ g i, 1 ≤ dieOutcome g i ∧ dieOutcome g i ≤ 6
        ∧ roll g i s = ((rollWith (dieOutcome g i) s).1, (rollWith (dieOutcome g i) s).2, i + 1)) := by
  refine ⟨fun h1 => ?_, fun h2 _ => ?_, fun g i => ⟨?_, ?_, rfl⟩⟩
  · subst h1; simp [rollWith]
  · have hne : o ≠ 1 := by omega
    refine ⟨by simp [rollWith, hne], by omega⟩
  · unfold dieOutcome; omega
  · unfold dieOutcome
    have : (g i % 6 : Nat) < 6 := Nat.mod_lt _ (by omega)
    omega

/-- Witness for C4 at the concrete score `(3,4,5)` and outcome 4. -/
theorem c4_roll_outcomes_witness :
    rollWith 4 { player := 3, opponent := 4, thisTurn := 5 } =
      ({ player := 3, opponent := 4, thisTurn := 4 + 5 }, false)
    ∧ (5 : Int) < 4 + 5 :=
  (c4_roll_outcomes { player := 3, opponent := 4, thisTurn := 5 } 4).2.1 (by decide) (by decide)

/-- C5: for every `Score s`, `stay` returns `thisTurn = 0`,
`player = s.opponent`, `opponent = s.player + s.thisTurn`, always ends
the turn, and draws no randomness (the RNG cursor is unchanged). -/
theorem c5_stay_spec (s : score) (g : RNG) (i : Nat) :
    stay s = ({ player := s.opponent, opponent := s.player + s.thisTurn, thisTurn := 0 }, true)
    ∧ applyAct Act.stay g i s = ((stay s).1, true, i) :=
  ⟨rfl, rfl⟩

/-- C6: `StayAtK k` chooses `stay` exactly when `thisTurn ≥ k`, otherwise
`roll`; in particular `StayAtK 100` rolls whenever `thisTurn < 100`.
The choice draws no randomness. -/
theorem c6_stayAtK_threshold (k : Int) (s : score) (g : RNG) (i : Nat) :
    ((nextAction (Strategy.StayAtK k) g i s).1 = Act.stay ↔ k ≤ s.thisTurn)
    ∧ (s.thisTurn < k → (nextAction (Strategy.StayAtK k) g i s).1 = Act.roll)
    ∧ (nextAction (Strategy.StayAtK k) g i s).2 = i := by
  refine ⟨?_, fun h => ?_, rfl⟩
  · simp only [nextAction]
    split
    · simpa
    · simp only [reduceCtorEq, false_iff]; omega
  · simp only [nextAction]
    split
    · omega
    · rfl

/-- Witness for C6: `StayAtK 100` rolls at `thisTurn = 50`. -/
theorem c6_stayAtK_threshold_witness :
    (nextAction (Strategy.StayAtK 100) gZero 0 { player := 0, opponent := 0, thisTurn := 50 }).1
      = Act.roll :=
  (c6_stayAtK_threshold 100 { player := 0, opponent := 0, thisTurn := 50 } gZero 0).2.1 (by decide)

/-- C10: for a single strategy, `roundRobin` returns the win-count vector
`[0]` and `gamesPerStrategy = 0` (the only worker has no higher-indexed
opponent and plays no games). -/
theorem c10_roundRobin_single (res : Nat → Nat → Nat → Nat) :
    roundRobin 1 res [0] = ([0], 0) :=
  rfl

theorem incAt_length (v : List Nat) (i : Nat) : (incAt v i).length = v.length := by
  induction v generalizing i with
  | nil => rfl
  | cons x xs ih =>
    cases i with
    | zero => rfl
    | succ m => simp [incAt, ih]

theorem incAt_sum (v : List Nat) (i : Nat) (h : i < v.length) :
    (incAt v i).sum = v.sum + 1 := by
  induction v generalizing i with
  | nil => simp at h
  | cons x xs ih =>
    cases i with
    | zero => simp [incAt]; omega
    | succ m =>
      have hm : m < xs.length := by simpa using h
      simp [incAt, ih m hm]; omega

theorem gameStep_length (res : Nat → Nat → Nat → Nat) (i j : Nat) (v : List Nat) (k : Nat) :
    (gameStep res i j v k).length = v.length := by
  unfold gameStep; split <;> exact incAt_length _ _

theorem gameStep_sum (res : Nat → Nat → Nat → Nat) (i j : Nat) (v : List Nat) (k : Nat)
    (hi : i < v.length) (hj : j < v.length) :
    (gameStep res i j v k).sum = v.sum + 1 := by
  unfold gameStep; split
  · exact incAt_sum v i hi
  · exact incAt_sum v j hj

theorem foldl_gameStep_length (res : Nat → Nat → Nat → Nat) (i j : Nat) (L : List Nat)
    (v : List Nat) : (L.foldl (gameStep res i j) v).length = v.length := by
  induction L generalizing v with
  | nil => rfl
  | cons k ks ih => simp only [List.foldl_cons]; rw [ih, gameStep_length]

theorem foldl_gameStep_sum (res : Nat → Nat → Nat → Nat) (i j : Nat) (L : List Nat)
    (v : List Nat) (hi : i < v.length) (hj : j < v.length) :
    (L.foldl (gameStep res i j) v).sum = v.sum + L.length := by
  induction L generalizing v with
  | nil => simp
  | cons k ks ih =>
    simp only [List.foldl_cons, List.length_cons]
    rw [ih _ (by rw [gameStep_length]; exact hi) (by rw [gameStep_length]; exact hj),
      gameStep_sum res i j v k hi hj]
    omega

theorem runSeries_length (res : Nat → Nat → Nat → Nat) (i j : Nat) (v : List Nat) :
    (runSeries res i j v).length = v.length :=
  foldl_gameStep_length res i j _ v

theorem runSeries_sum (res : Nat → Nat → Nat → Nat) (i j : Nat) (v : List Nat)
    (hi : i < v.length) (hj : j < v.length) :
    (runSeries res i j v).sum = v.sum + gamesPerSeries := by
  unfold runSeries
  rw [foldl_gameStep_sum res i j _ v hi hj, List.length_range]

theorem foldl_runSeries_length (res : Nat → Nat → Nat → Nat) (i : Nat) (J : List Nat)
    (v : List Nat) : (J.foldl (fun v j => runSeries res i j v) v).length = v.length := by
  induction J generalizing v with
  | nil => rfl
  | cons j js ih => simp only [List.foldl_cons]; rw [ih, runSeries_length]

theorem foldl_runSeries_sum (res : Nat → Nat → Nat → Nat) (i : Nat) (J : List Nat)
    (v : List Nat) (hi : i < v.length) (hJ : ∀ j ∈ J, j < v.length) :
    (J.foldl (fun v j => runSeries res i j v) v).sum = v.sum + gamesPerSeries * J.length := by
  induction J generalizing v with
  | nil => simp
  | cons j js ih =>
    simp only [List.foldl_cons, List.length_cons]
    rw [ih _ (by rw [runSeries_length]; exact hi)
        (fun j' hj' => by rw [runSeries_length]; exact hJ j' (List.mem_cons_of_mem _ hj')),
      runSeries_sum res i j v hi (hJ j (List.mem_cons_self _ _))]
    ring

theorem workerCount_length (res : Nat → Nat → Nat → Nat) (n i : Nat) :
    (workerCount res n i).length = n := by
  unfold workerCount
  rw [foldl_runSeries_length, List.length_replicate]

theorem workerCount_sum (res : Nat → Nat → Nat → Nat) (n i : Nat) (h : i < n) :
    (workerCount res n i).sum = gamesPerSeries * (n - (i + 1)) := by
  unfold workerCount
  rw [foldl_runSeries_sum res i _ _ (by simpa using h)
      (fun j hj => by
        have : j ∈ List.range n := List.mem_of_mem_drop hj
        simpa using List.mem_range.mp this)]
  simp [List.sum_replicate, List.length_drop]

theorem vadd_length (a b : List Nat) : (vadd a b).length = min a.length b.length := by
  simp [vadd]

theorem vadd_sum (a b : List Nat) (h : a.length = b.length) :
    (vadd a b).sum = a.sum + b.sum := by
  induction a generalizing b with
  | nil =>
    cases b with
    | nil => rfl
    | cons y ys => simp at h
  | cons x xs ih =>
    cases b with
    | nil => simp at h
    | cons y ys =>
      have h' : xs.length = ys.length := by simpa using h
      have hih := ih ys h'
      simp only [vadd, List.zipWith_cons_cons, List.sum_cons] at hih ⊢
      omega

theorem vadd_left_comm (z a b : List Nat) : vadd (vadd z a) b = vadd (vadd z b) a := by
  induction z generalizing a b with
  | nil => simp [vadd]
  | cons h t ih =>
    cases a with
    | nil => simp [vadd]
    | cons x xs =>
      cases b with
      | nil => simp [vadd]
      | cons y ys =>
        simp only [vadd, List.zipWith_cons_cons] at *
        refine congrArg₂ _ (by omega) (ih xs ys)

theorem foldl_vadd_length (V : List (List Nat)) (z : List Nat)
    (hV : ∀ v ∈ V, v.length = z.length) : (V.foldl vadd z).length = z.length := by
  induction V generalizing z with
  | nil => rfl
  | cons v vs ih =>
    simp only [List.foldl_cons]
    have hz : (vadd z v).length = z.length := by
      rw [vadd_length, hV v (List.mem_cons_self _ _)]; omega
    rw [ih _ (fun u hu => by rw [hz]; exact hV u (List.mem_cons_of_mem _ hu)), hz]

theorem foldl_vadd_sum (V : List (List Nat)) (z : List Nat)
    (hV : ∀ v ∈ V, v.length = z.length) :
    (V.foldl vadd z).sum = z.sum + (V.map List.sum).sum := by
  induction V generalizing z with
  | nil => simp
  | cons v vs ih =>
    simp only [List.foldl_cons, List.map_cons, List.sum_cons]
    have hz : (vadd z v).length = z.length := by
      rw [vadd_length, hV v (List.mem_cons_self _ _)]; omega
    rw [ih _ (fun u hu => by rw [hz]; exact hV u (List.mem_cons_of_mem _ hu)),
      vadd_sum z v (hV v (List.mem_cons_self _ _)).symm]
    omega

theorem foldl_vadd_perm {V1 V2 : List (List Nat)} (h : V1.Perm V2) (z : List Nat) :
    V1.foldl vadd z = V2.foldl vadd z := by
  induction h generalizing z with
  | nil => rfl
  | cons x _ ih => simp only [List.foldl_cons]; exact ih _
  | swap x y l => simp only [List.foldl_cons]; rw [vadd_left_comm]
  | trans _ _ ih1 ih2 => exact (ih1 z).trans (ih2 z)

theorem sum_map_succ_of (l : List Nat) (f g : Nat → Nat) (h : ∀ x ∈ l, f x = g x + 1) :
    (l.map f).sum = (l.map g).sum + l.length := by
  induction l with
  | nil => simp
  | cons x xs ih =>
    simp only [List.map_cons, List.sum_cons, List.length_cons]
    rw [h x (List.mem_cons_self _ _), ih (fun y hy => h y (List.mem_cons_of_mem _ hy))]
    omega

theorem range_rev_sum (n : Nat) :
    ((List.range n).map (fun i => n - (i + 1))).sum * 2 = n * (n - 1) := by
  induction n with
  | zero => rfl
  | succ n ih =>
    have step : ((List.range (n + 1)).map (fun i => n + 1 - (i + 1))).sum
        = ((List.range n).map (fun i => n - (i + 1))).sum + n := by
      rw [List.range_succ, List.map_append, List.sum_append]
      have hsub : ∀ i, n + 1 - (i + 1) = n - i := fun i => by omega
      simp only [hsub, List.map_cons, List.map_nil, List.sum_cons, List.sum_nil,
        Nat.sub_self]
      rw [sum_map_succ_of (List.range n) (fun i => n - i) (fun i => n - (i + 1))
          (fun x hx => by
            have := List.mem_range.mp hx
            show n - x = n - (x + 1) + 1
            omega)]
      simp [List.length_range]
    rw [step]
    cases n with
    | zero => rfl
    | succ m =>
      rw [Nat.add_mul, ih]
      simp only [Nat.add_sub_cancel]
      ring

theorem range_rev_sum_div (n : Nat) :
    ((List.range n).map (fun i => n - (i + 1))).sum = n * (n - 1) / 2 := by
  have h := range_rev_sum n
  omega

/-- C1: for `n ≥ 2` strategies and any game outcomes and any arrival
order of the worker vectors, the `roundRobin` win counts sum to
`gamesPerSeries * n*(n-1)/2` (with `gamesPerSeries = 10`), and the
returned `gamesPerStrategy` is `gamesPerSeries * (n-1)`. -/
theorem c1_roundRobin_invariant (n : Nat) (res : Nat → Nat → Nat → Nat) (order : List Nat)
    (h2 : 2 ≤ n) (hp : order.Perm (List.range n)) :
    gamesPerSeries = 10
    ∧ (roundRobin n res order).1.sum = gamesPerSeries * (n * (n - 1) / 2)
    ∧ (roundRobin n res order).2 = gamesPerSeries * (n - 1) := by
  refine ⟨rfl, ?_, rfl⟩
  show ((order.map (workerCount res n)).foldl vadd (List.replicate n 0)).sum = _
  have hlen : ∀ v ∈ order.map (workerCount res n), v.length = (List.replicate n 0).length := by
    intro v hv
    rcases List.mem_map.mp hv with ⟨i, _, rfl⟩
    rw [workerCount_length, List.length_replicate]
  rw [foldl_vadd_sum _ _ hlen, List.map_map]
  have hmem : ∀ i ∈ order, i < n := fun i hi => List.mem_range.mp (hp.subset hi)
  have hcong : order.map (List.sum ∘ workerCount res n)
      = order.map (fun i => gamesPerSeries * (n - (i + 1))) :=
    List.map_congr_left (fun i hi => workerCount_sum res n i (hmem i hi))
  rw [hcong, (hp.map (fun i => gamesPerSeries * (n - (i + 1)))).sum_eq,
    List.sum_map_mul_left (List.range n) (fun i => n - (i + 1)) gamesPerSeries,
    range_rev_sum_div n]
  simp [List.sum_replicate]

/-- Witness for C1 at `n = 3` with outcomes all favouring the lower
index and arrival order `0, 1, 2`. -/
theorem c1_roundRobin_invariant_witness :
    gamesPerSeries = 10
    ∧ (roundRobin 3 resZero (List.range 3)).1.sum = gamesPerSeries * (3 * (3 - 1) / 2)
    ∧ (roundRobin 3 resZero (List.range 3)).2 = gamesPerSeries * (3 - 1) :=
  c1_roundRobin_invariant 3 resZero (List.range 3) (by omega) (List.Perm.refl _)

/-- C7: the aggregated `roundRobin` result is invariant under the
arrival order of the per-worker result vectors: any two permuted
arrival orders give the same element-wise sum. -/
theorem c7_aggregation_order_invariant (n : Nat) (res : Nat → Nat → Nat → Nat)
    (o1 o2 : List Nat) (hp : o1.Perm o2) :
    roundRobin n res o1 = roundRobin n res o2 := by
  unfold roundRobin
  exact Prod.ext (foldl_vadd_perm (hp.map _) _) rfl

/-- Witness for C7: swapping the arrival of workers 0 and 1 in a 3-way
tournament leaves the aggregate unchanged. -/
theorem c7_aggregation_order_invariant_witness :
    roundRobin 3 resZero [1, 0, 2] = roundRobin 3 resZero [0, 1, 2] :=
  c7_aggregation_order_invariant 3 resZero [1, 0, 2] [0, 1, 2] (List.Perm.swap 0 1 [2])

theorem playLoop_eq_some_iff (s0 s1 : Strategy) (g : RNG) :
    ∀ (fuel : Nat) (st : GState) (w : Nat),
    playLoop s0 s1 g fuel st = some w ↔
      ∃ t, t ≤ fuel ∧ ¬condG ((stepG s0 s1 g)^[t] st)
        ∧ (∀ t' < t, condG ((stepG s0 s1 g)^[t'] st))
        ∧ w = ((stepG s0 s1 g)^[t] st).cur := by
  intro fuel
  induction fuel with
  | zero =>
    intro st w
    by_cases hc : condG st
    · simp only [playLoop, if_pos hc]
      constructor
      · intro h; cases h
      · rintro ⟨t, ht, hnc, -, -⟩
        have ht0 : t = 0 := Nat.le_zero.mp ht
        subst ht0
        exact absurd hc (by simpa using hnc)
    · simp only [playLoop, if_neg hc, Option.some.injEq]
      constructor
      · intro h
        exact ⟨0, Nat.le_refl 0, by simpa using hc,
          fun t' ht' => absurd ht' (Nat.not_lt_zero t'), by simpa using h.symm⟩
      · rintro ⟨t, ht, -, -, hw⟩
        have ht0 : t = 0 := Nat.le_zero.mp ht
        subst ht0
        simpa using hw.symm
  | succ fuel ih =>
    intro st w
    by_cases hc : condG st
    · rw [show playLoop s0 s1 g (fuel + 1) st
          = playLoop s0 s1 g fuel (stepG s0 s1 g st) from by
            simp only [playLoop, if_pos hc]]
      rw [ih (stepG s0 s1 g st) w]
      constructor
      · rintro ⟨t, ht, hnc, hall, hw⟩
        refine ⟨t + 1, by omega, ?_, ?_, ?_⟩
        · rwa [Function.iterate_succ_apply]
        · intro t' ht'
          cases t' with
          | zero => simpa using hc
          | succ t'' =>
            rw [Function.iterate_succ_apply]
            exact hall t'' (by omega)
        · rwa [Function.iterate_succ_apply]
      · rintro ⟨t, ht, hnc, hall, hw⟩
        cases t with
        | zero => exact absurd hc (by simpa using hnc)
        | succ t'' =>
          refine ⟨t'', by omega, ?_, ?_, ?_⟩
          · rwa [Function.iterate_succ_apply] at hnc
          · intro t' ht'
            have := hall (t' + 1) (by omega)
            rwa [Function.iterate_succ_apply] at this
          · rwa [Function.iterate_succ_apply] at hw
    · rw [show playLoop s0 s1 g (fuel + 1) st = some st.cur from by
          simp only [playLoop, if_neg hc]]
      simp only [Option.some.injEq]
      constructor
      · intro h
        exact ⟨0, by omega, by simpa using hc,
          fun t' ht' => absurd ht' (Nat.not_lt_zero t'), by simpa using h.symm⟩
      · rintro ⟨t, ht, hnc, hall, hw⟩
        cases t with
        | zero => simpa using hw.symm
        | succ t'' => exact absurd (by simpa using hall 0 (by omega)) hc

theorem stepG_cur_lt_two (s0 s1 : Strategy) (g : RNG) (st : GState) (h : st.cur < 2) :
    (stepG s0 s1 g st).cur < 2 := by
  unfold stepG
  dsimp only
  split <;> omega

theorem iterG_cur_lt_two (s0 s1 : Strategy) (g : RNG) (t : Nat) :
    (iterG s0 s1 g t).cur < 2 := by
  induction t with
  | zero =>
    show (initG g).cur < 2
    exact Nat.mod_lt _ (by omega)
  | succ t ih =>
    unfold iterG at ih ⊢
    rw [Function.iterate_succ_apply']
    exact stepG_cur_lt_two _ _ _ _ ih

theorem play_some_cur_lt_two (s0 s1 : Strategy) (g : RNG) (fuel w : Nat)
    (h : play s0 s1 g fuel = some w) : w < 2 := by
  rcases (playLoop_eq_some_iff s0 s1 g fuel (initG g) w).mp h with ⟨t, -, -, -, hw⟩
  rw [hw]
  exact iterG_cur_lt_two s0 s1 g t

/-- C2: a run of `play` returns `some w` exactly when the loop guard
`player + thisTurn < win` first fails within the fuel at some iterate of
the loop body, and `w` is the acting role index at that moment; the
winner is always 0 or 1; and one loop body flips the acting index
exactly when the applied action reports the turn is over. -/
theorem c2_play_loop_contract (s0 s1 : Strategy) (g : RNG) (fuel w : Nat) :
    (play s0 s1 g fuel = some w ↔
      ∃ t, t ≤ fuel ∧ ¬condG (iterG s0 s1 g t)
        ∧ (∀ t' < t, condG (iterG s0 s1 g t'))
        ∧ w = (iterG s0 s1 g t).cur)
    ∧ (play s0 s1 g fuel = some w → w < 2)
    ∧ (∀ st : GState, st.cur < 2 →
        ((stepG s0 s1 g st).cur ≠ st.cur ↔ (appliedStep s0 s1 g st).2.1 = true)) := by
  refine ⟨playLoop_eq_some_iff s0 s1 g fuel (initG g) w,
    play_some_cur_lt_two s0 s1 g fuel w, fun st hst => ?_⟩
  unfold stepG
  dsimp only
  by_cases hf : (appliedStep s0 s1 g st).2.1
  · rw [if_pos hf]
    simp only [hf, iff_true]
    omega
  · rw [if_neg hf]
    simp [hf]

/-- Witness for C2: on the all-fives stream `StayAtK 1` self-play exits
with winner 1, and the contract bounds it below 2. -/
theorem c2_play_loop_contract_witness :
    play (Strategy.StayAtK 1) (Strategy.StayAtK 1) gSix 200 = some 1 ∧ (1 : Nat) < 2 :=
  ⟨by decide,
    (c2_play_loop_contract (Strategy.StayAtK 1) (Strategy.StayAtK 1) gSix 200 1).2.1 (by decide)⟩

theorem stayAtZero_playLoop_none (g : RNG) :
    ∀ (fuel : Nat) (st : GState), st.s = { player := 0, opponent := 0, thisTurn := 0 } →
      playLoop (Strategy.StayAtK 0) (Strategy.StayAtK 0) g fuel st = none := by
  intro fuel
  induction fuel with
  | zero =>
    intro st h
    simp only [playLoop]
    rw [if_pos (by unfold condG; rw [h]; decide)]
  | succ fuel ih =>
    intro st h
    simp only [playLoop]
    rw [if_pos (by unfold condG; rw [h]; decide)]
    apply ih
    simp [stepG, appliedStep, chosenAct, nextAction, activeStrategy, applyAct, stay, h]

/-- C3 counterexample: `play` does not terminate for every pair of
strategies: `StayAtK 0` against itself always stays at `thisTurn = 0`,
so the score remains `(0,0,0)` and the loop never exits (here on the
all-zeros stream; no randomness is ever consumed by these strategies). -/
theorem c3_play_termination_counterexample :
    ¬ PlayTerminates (Strategy.StayAtK 0) (Strategy.StayAtK 0) gZero := by
  rintro ⟨fuel, w, hw⟩
  rw [play, stayAtZero_playLoop_none gZero fuel (initG gZero) rfl] at hw
  cases hw

/-- C3 amended: whenever the `play` loop exits it returns a winner index
in `{0,1}`, and no iteration cap is imposed; termination holds for some
strategy pairs and streams (`StayAtK 1` self-play on a stream of sixes)
but not for every pair: `StayAtK 0` self-play never terminates on any
stream. -/
theorem c3_play_termination_amended :
    (∀ (s0 s1 : Strategy) (g : RNG) (fuel w : Nat), play s0 s1 g fuel = some w → w < 2)
    ∧ PlayTerminates (Strategy.StayAtK 1) (Strategy.StayAtK 1) gSix
    ∧ (∀ g : RNG, ¬ PlayTerminates (Strategy.StayAtK 0) (Strategy.StayAtK 0) g) := by
  refine ⟨play_some_cur_lt_two, ⟨200, 1, by decide⟩, ?_⟩
  rintro g ⟨fuel, w, hw⟩
  rw [play, stayAtZero_playLoop_none g fuel (initG g) rfl] at hw
  cases hw

/-- Witness for C3 (amended): a concrete terminating run with its winner
bounded by the first conjunct. -/
theorem c3_play_termination_amended_witness :
    play (Strategy.StayAtK 1) (Strategy.StayAtK 1) gSix 200 = some 1 ∧ (1 : Nat) < 2 :=
  ⟨by decide,
    c3_play_termination_amended.1 (Strategy.StayAtK 1) (Strategy.StayAtK 1) gSix 200 1 (by decide)⟩

theorem length_pos_of_ne_empty (b : String) (hb : b ≠ "") : 0 < b.length := by
  cases b with
  | mk data =>
    cases data with
    | nil => exact absurd rfl hb
    | cons c cs => simp [String.length]

theorem append_ne_empty_right (a b : String) (hb : b ≠ "") : a ++ b ≠ "" := by
  intro h
  have hlen := congrArg String.length h
  rw [String.length_append] at hlen
  rw [show ("" : String).length = 0 from rfl] at hlen
  have hpos := length_pos_of_ne_empty b hb
  omega

theorem append_ne_empty_left (a b : String) (ha : a ≠ "") : a ++ b ≠ "" := by
  intro h
  have hlen := congrArg String.length h
  rw [String.length_append] at hlen
  rw [show ("" : String).length = 0 from rfl] at hlen
  have hpos := length_pos_of_ne_empty a ha
  omega

theorem sepJoin_cons (e : String) (es : List String) :
    sepJoin (e :: es) = e ++ commaTail es := by
  induction es generalizing e with
  | nil => simp only [sepJoin, commaTail, String.append_empty]
  | cons f fs ih =>
    show e ++ ", " ++ sepJoin (f :: fs) = _
    rw [ih f]
    simp only [commaTail, String.append_assoc]

theorem ratioEntry_ne_empty (total val : Int) : ratioEntry total val ≠ "" := by
  unfold ratioEntry
  exact append_ne_empty_right _ "%)" (by decide)

theorem ratioFold_aux (total : Int) (es : List Int) :
    ∀ s : String, s ≠ "" →
      es.foldl (fun s val => (if s ≠ "" then s ++ ", " else s) ++ ratioEntry total val) s
        = s ++ commaTail (es.map (ratioEntry total)) := by
  induction es with
  | nil =>
    intro s _
    simp only [List.foldl_nil, List.map_nil, commaTail, String.append_empty]
  | cons v vs ih =>
    intro s hs
    simp only [List.foldl_cons, List.map_cons, commaTail]
    rw [if_pos hs, ih _ (append_ne_empty_right _ _ (ratioEntry_ne_empty total v))]
    simp only [String.append_assoc]

theorem ratioString_eq_sepJoin (vals : List Int) :
    ratioString vals = sepJoin (vals.map (ratioEntry (vals.foldl (· + ·) 0))) := by
  unfold ratioString
  generalize vals.foldl (· + ·) 0 = total
  cases vals with
  | nil => rfl
  | cons v vs =>
    rw [List.foldl_cons, List.map_cons, sepJoin_cons, if_neg (by simp),
      String.empty_append]
    exact ratioFold_aux total vs _ (ratioEntry_ne_empty total v)

theorem foldl_add_eq_sum (a : Int) (l : List Int) : l.foldl (· + ·) a = a + l.sum := by
  induction l generalizing a with
  | nil => simp
  | cons x xs ih =>
    simp only [List.foldl_cons, List.sum_cons, ih (a + x)]
    ring

theorem all_zero_of_nonneg_sum_zero (vals : List Int) (hn : ∀ v ∈ vals, 0 ≤ v)
    (hs : vals.foldl (· + ·) 0 = 0) : ∀ v ∈ vals, v = 0 := by
  rw [foldl_add_eq_sum, zero_add] at hs
  induction vals with
  | nil => intro v hv; cases hv
  | cons x xs ih =>
    rw [List.sum_cons] at hs
    have hx : 0 ≤ x := hn x (List.mem_cons_self _ _)
    have hxs : 0 ≤ xs.sum :=
      List.sum_nonneg (fun y hy => hn y (List.mem_cons_of_mem _ hy))
    intro v hv
    rcases List.mem_cons.mp hv with h | h
    · omega
    · exact ih (fun y hy => hn y (List.mem_cons_of_mem _ hy)) (by omega) v h

/-- C8: a ratio request whose total is zero is never rendered as a zero
percentage: with the program's non-negative win counts a zero total
forces every value to be zero, the IEEE-754 quotient `0/0` is `NaN`,
and `ratioString` surfaces `NaN` in every item. -/
theorem c8_ratioString_zero_total (vals : List Int) (hn : ∀ v ∈ vals, 0 ≤ v)
    (h0 : vals.foldl (· + ·) 0 = 0) :
    pctString 0 0 = "NaN"
    ∧ ratioString vals = sepJoin (vals.map (fun _ => "0/0 (NaN%)")) := by
  refine ⟨rfl, ?_⟩
  rw [ratioString_eq_sepJoin, h0]
  have hmap : vals.map (ratioEntry 0) = vals.map (fun _ => "0/0 (NaN%)") :=
    List.map_congr_left (fun v hv => by
      rw [all_zero_of_nonneg_sum_zero vals hn h0 v hv]
      rfl)
  rw [hmap]

/-- Witness for C8 at the concrete value list `[0, 0]`. -/
theorem c8_ratioString_zero_total_witness :
    pctString 0 0 = "NaN"
    ∧ ratioString [0, 0] = sepJoin (([0, 0] : List Int).map (fun _ => "0/0 (NaN%)")) :=
  c8_ratioString_zero_total [0, 0] (by decide) (by decide)

/-- C9: every value is rendered as `"<wins>/<total> (<pct to 1 decimal>%)"`
and the renderings are joined by `", "`; on the values 1, 2, 3 the result
is exactly `"1/6 (16.7%), 2/6 (33.3%), 3/6 (50.0%)"`. -/
theorem c9_ratioString_example :
    ratioString [1, 2, 3] = "1/6 (16.7%), 2/6 (33.3%), 3/6 (50.0%)"
    ∧ ∀ vals : List Int,
        ratioString vals = sepJoin (vals.map (ratioEntry (vals.foldl (· + ·) 0))) :=
  ⟨by decide, ratioString_eq_sepJoin⟩
